import Mathlib

/-!
Verification of the execution-segment arithmetic of k6's `lib` package
(`execution_segment.go`): representation, validation, text parsing and
formatting, splitting, sub-segmenting, and proportional scaling of an
`ExecutionSegment`, a `(from, to]` sub-interval of `(0, 1]` represented
with exact rational arithmetic (`big.Rat` in the source, `ℚ` here).

A `nil` (absent) segment in Go is modelled as `none : Option ExecutionSegment`.
Go's `big.Rat` is an arbitrary-precision rational in lowest terms with a
positive denominator, which is exactly Lean's `ℚ`; `big.Int` is `ℤ`.
Strings are modelled as `List Char`.
-/

/-- Type `ExecutionSegment` from the source: a `(from, to]` partition of the total
execution work, with the derived `length = to - from` stored alongside. -/
structure ExecutionSegment where
  «from» : ℚ
  «to» : ℚ
  length : ℚ
deriving DecidableEq, Repr

/-- The error kinds of the component, named as in the specification; the
source raises them as formatted Go `error` strings whose text carries no
semantic content beyond the kind. -/
inductive SegmentError where
  | invalidRange
  | parseError
  | invalidArgument
  | internalInvariant
deriving DecidableEq, Repr

deriving instance DecidableEq for Except

/-- Function `NewExecutionSegment` from the source: validates `0 ≤ from < to ≤ 1` and
returns a fully initialized segment with `length` precomputed as `to - from`. -/
def NewExecutionSegment («from» «to» : ℚ) : Except SegmentError ExecutionSegment :=
  if «from» < 0 then .error .invalidRange
  else if «to» ≤ «from» then .error .invalidRange
  else if 1 < «to» then .error .invalidRange
  else .ok ⟨«from», «to», «to» - «from»⟩

/-- The invariants of a (non-absent) segment, from the data-model section of
the specification. -/
def Valid (s : ExecutionSegment) : Prop :=
  0 ≤ s.«from» ∧ s.«from» < s.«to» ∧ s.«to» ≤ 1 ∧ s.length = s.«to» - s.«from»

instance (s : ExecutionSegment) : Decidable (Valid s) :=
  inferInstanceAs (Decidable (0 ≤ s.«from» ∧ s.«from» < s.«to» ∧ s.«to» ≤ 1 ∧ s.length = s.«to» - s.«from»))

/-- A possibly-absent segment is valid when it is either `nil` (the full
`(0,1]` range) or a valid segment. -/
def OValid : Option ExecutionSegment → Prop
  | none => True
  | some s => Valid s

instance (es : Option ExecutionSegment) : Decidable (OValid es) :=
  match es with
  | none => inferInstanceAs (Decidable True)
  | some s => inferInstanceAs (Decidable (Valid s))

/-- The `from, to := zeroRat, oneRat; if es != nil {...}` default used by
`Split`, `Equal` and `SubSegment`: an absent segment starts at 0. -/
def segFrom : Option ExecutionSegment → ℚ
  | none => 0
  | some s => s.«from»

/-- The matching default for the end of an absent segment: 1. -/
def segTo : Option ExecutionSegment → ℚ
  | none => 1
  | some s => s.«to»

/-- The `parentFrom, parentLength := zeroRat, oneRat` default used by
`SubSegment`: an absent parent has length 1. -/
def parentLength : Option ExecutionSegment → ℚ
  | none => 1
  | some s => s.length

/-- Method `SubSegment` from the source: reinterprets `child` as a portion of `es`.
An absent child means 100% of the parent; an absent parent is the full
`(0,1]` range. -/
def SubSegment (es child : Option ExecutionSegment) : Option ExecutionSegment :=
  match child with
  | none => es
  | some c =>
    let resultFrom := parentLength es * c.«from» + segFrom es
    let resultLength := parentLength es * c.length
    some ⟨resultFrom, resultFrom + resultLength, resultLength⟩

/-- Helper `roundUp` from the source: `quo, rem := QuoRem(num, den)` (Go's `big.Int`
T-division, truncating toward zero) followed by `if rem*2 >= den { quo+1 }`.
For nonnegative rationals this is round-half-up; for negative ones it
truncates toward zero. -/
def roundUp (rat : ℚ) : ℤ :=
  let quo := Int.tdiv rat.num (rat.den : ℤ)
  let rem := Int.tmod rat.num (rat.den : ℤ)
  if (rat.den : ℤ) ≤ 2 * rem then quo + 1 else quo

/-- Method `Scale` from the source: `roundUp(value*to - roundUp(value*from))`, with
an absent segment scaling the value to itself. -/
def Scale (es : Option ExecutionSegment) (value : ℤ) : ℤ :=
  match es with
  | none => value
  | some s =>
    roundUp ((value : ℚ) * s.«to» - ((roundUp ((value : ℚ) * s.«from») : ℤ) : ℚ))

/-- Method `InPlaceScaleRat` from the source: multiplies the value by the segment's
length (mutating the caller's rational in Go; values here). -/
def InPlaceScaleRat (es : Option ExecutionSegment) (value : ℚ) : ℚ :=
  match es with
  | none => value
  | some s => value * s.length

/-- Method `CopyScaleRat` from the source: the allocation-free variant of the same
multiplication; identical at the level of values. -/
def CopyScaleRat (es : Option ExecutionSegment) (value : ℚ) : ℚ :=
  match es with
  | none => value
  | some s => value * s.length

/-- The body of `Split`'s loop: at each step builds a segment
`(from, from + increment]` through `NewExecutionSegment` (propagating its
error) and advances `from`; returns the segments and the final `from`. -/
def splitGo (increment : ℚ) : ℕ → ℚ → Except SegmentError (List ExecutionSegment × ℚ)
  | 0, «from» => .ok ([], «from»)
  | k + 1, «from» =>
    match NewExecutionSegment «from» («from» + increment) with
    | .error e => .error e
    | .ok segment =>
      match splitGo increment k («from» + increment) with
      | .error e => .error e
      | .ok (rest, final) => .ok (segment :: rest, final)

/-- Method `Split` from the source: rejects `numParts < 1`, computes
`increment = (to - from) / numParts` (the source divides by multiplying the
denominator of the normalized difference, which yields the same rational
value), runs the loop, and defensively checks that the accumulated boundary
reached `to` exactly. -/
def Split (es : Option ExecutionSegment) (numParts : ℤ) :
    Except SegmentError (List ExecutionSegment) :=
  if numParts < 1 then .error .invalidArgument
  else
    let «from» := segFrom es
    let «to» := segTo es
    let increment := («to» - «from») / (numParts : ℚ)
    match splitGo increment numParts.toNat «from» with
    | .error e => .error e
    | .ok (results, final) =>
      if final ≠ «to» then .error .internalInvariant else .ok results

/-- The decimal digit characters, used by the spec-modelled text layer. -/
def digitChar (d : ℕ) : Char :=
  match d with
  | 0 => '0'
  | 1 => '1'
  | 2 => '2'
  | 3 => '3'
  | 4 => '4'
  | 5 => '5'
  | 6 => '6'
  | 7 => '7'
  | 8 => '8'
  | _ => '9'

/-- Decimal rendering of a natural number, most significant digit first. -/
def natToDigits (n : ℕ) : List Char :=
  if _h : n < 10 then [digitChar n]
  else natToDigits (n / 10) ++ [digitChar (n % 10)]
decreasing_by exact Nat.div_lt_self (by omega) (by omega)

/-- The value of a digit string read left to right. -/
def digitsVal (cs : List Char) : ℕ :=
  cs.foldl (fun a c => 10 * a + (c.toNat - 48)) 0

/-- Reads a nonempty all-digit string as a natural number; anything else is
rejected. -/
def digitsToNat (cs : List Char) : Option ℕ :=
  if cs ≠ [] ∧ cs.all Char.isDigit then some (digitsVal cs) else none

/-- Modelled from the spec: `big.Int.SetString(s, 10)` (Go's `math/big`, not
part of this repository): an optionally signed nonempty string of decimal
digits, read as an integer. -/
def intSetString (s : List Char) : Option ℤ :=
  match s with
  | [] => none
  | c :: rest =>
    if c = '+' then (digitsToNat rest).map (fun n : ℕ => (n : ℤ))
    else if c = '-' then (digitsToNat rest).map (fun n : ℕ => -(n : ℤ))
    else (digitsToNat (c :: rest)).map (fun n : ℕ => (n : ℤ))

/-- Splits a string at the first occurrence of `sep`, or `none` when absent:
the model of Go's `strings.ContainsRune` guard plus
`strings.SplitN(s, sep, 2)`. -/
def splitOnFirst (sep : Char) : List Char → Option (List Char × List Char)
  | [] => none
  | c :: rest =>
    if c = sep then some ([], rest)
    else (splitOnFirst sep rest).map (fun p => (c :: p.1, p.2))

/-- Modelled from the spec: `big.Rat.SetString` (Go's `math/big`, not part of
this repository), restricted to the grammar the spec requires of a value
token: a `numerator/denominator` fraction with a nonzero denominator, a
decimal, or a plain integer, parsed as an exact rational; malformed text is
rejected. -/
def ratSetString (s : List Char) : Option ℚ :=
  match splitOnFirst '/' s with
  | some (a, b) =>
    match intSetString a, digitsToNat b with
    | some num, some den => if den = 0 then none else some ((num : ℚ) / (den : ℚ))
    | _, _ => none
  | none =>
    match splitOnFirst '.' s with
    | some (a, b) =>
      let signed : Bool × List Char :=
        match a with
        | '-' :: rest => (true, rest)
        | '+' :: rest => (false, rest)
        | _ => (false, a)
      if (signed.2.all Char.isDigit ∧ b.all Char.isDigit) ∧ (signed.2 ≠ [] ∨ b ≠ []) then
        let mag : ℚ := (digitsVal signed.2 : ℚ) + (digitsVal b : ℚ) / ((10 : ℚ) ^ b.length)
        some (if signed.1 then -mag else mag)
      else none
    | none => (intSetString s).map (fun n : ℤ => (n : ℚ))

/-- Helper `stringToRat` from the source: a trailing `%` makes the integer before it
a percentage (`SetFrac(n, 100)`); otherwise the text goes to the rational
parser. -/
def stringToRat (s : List Char) : Except SegmentError ℚ :=
  if s.getLast? = some '%' then
    match intSetString s.dropLast with
    | none => .error .parseError
    | some num => .ok ((num : ℚ) / 100)
  else
    match ratSetString s with
    | none => .error .parseError
    | some rat => .ok rat

/-- Method `UnmarshalText` from the source, with the Go pointer receiver made
explicit: the result pairs the returned error (if any) with the receiver's
state after the call. Text with a colon is a full `from:to` segment; text
without one is the end of a segment starting at 0; the receiver is
overwritten only on full success. -/
def UnmarshalText (es : ExecutionSegment) (text : List Char) :
    Option SegmentError × ExecutionSegment :=
  match splitOnFirst ':' text with
  | some (fromStr, toStr) =>
    match stringToRat fromStr with
    | .error e => (some e, es)
    | .ok «from» =>
      match stringToRat toStr with
      | .error e => (some e, es)
      | .ok «to» =>
        match NewExecutionSegment «from» «to» with
        | .error e => (some e, es)
        | .ok segment => (none, segment)
  | none =>
    match stringToRat text with
    | .error e => (some e, es)
    | .ok «to» =>
      match NewExecutionSegment 0 «to» with
      | .error e => (some e, es)
      | .ok segment => (none, segment)

/-- Modelled from the spec: `big.Rat.RatString` (Go's `math/big`, not part of
this repository): the exact rational notation, `num/den` in lowest terms, or
just `num` when the denominator is 1. -/
def ratString (q : ℚ) : List Char :=
  (if q.num < 0 then ['-'] else []) ++
    natToDigits q.num.natAbs ++
    (if q.den = 1 then [] else '/' :: natToDigits q.den)

/-- Method `String` from the source: `"0:1"` for an absent segment, and
`from.RatString() + ":" + to.RatString()` otherwise. -/
def segmentString : Option ExecutionSegment → List Char
  | none => ['0', ':', '1']
  | some s => ratString s.«from» ++ ':' :: ratString s.«to»

/-- Method `MarshalText` from the source: `nil` bytes (with no error) for an absent
segment, and the `String` rendering otherwise. -/
def MarshalText : Option ExecutionSegment → Option (List Char)
  | none => none
  | some s => some (segmentString (some s))

/-- On every path of `UnmarshalText`, either the call succeeded or the
receiver is returned untouched. -/
theorem unmarshalText_cases (es : ExecutionSegment) (text : List Char) :
    (UnmarshalText es text).1 = none ∨ (UnmarshalText es text).2 = es := by
  unfold UnmarshalText
  repeat' split
  all_goals simp

/-- C3: `NewExecutionSegment(from, to)` returns an error if and only if
`from < 0` or `from ≥ to` or `to > 1`; on success the returned segment
carries exactly the given bounds and `length = to - from` computed exactly. -/
theorem newExecutionSegment_spec («from» «to» : ℚ) :
    ((∃ e, NewExecutionSegment «from» «to» = .error e) ↔
      («from» < 0 ∨ «from» ≥ «to» ∨ «to» > 1)) ∧
    ∀ s, NewExecutionSegment «from» «to» = .ok s →
      s.«from» = «from» ∧ s.«to» = «to» ∧ s.length = «to» - «from» := by
  unfold NewExecutionSegment
  split_ifs with h1 h2 h3
  · exact ⟨⟨fun _ => Or.inl h1, fun _ => ⟨_, rfl⟩⟩, fun s hs => absurd hs (by simp)⟩
  · exact ⟨⟨fun _ => Or.inr (Or.inl h2), fun _ => ⟨_, rfl⟩⟩, fun s hs => absurd hs (by simp)⟩
  · exact ⟨⟨fun _ => Or.inr (Or.inr h3), fun _ => ⟨_, rfl⟩⟩, fun s hs => absurd hs (by simp)⟩
  · refine ⟨⟨fun ⟨e, he⟩ => absurd he (by simp), fun h => ?_⟩, fun s hs => ?_⟩
    · rcases h with h | h | h
      · exact absurd h h1
      · exact absurd h h2
      · exact absurd h h3
    · injection hs with hs
      subst hs
      exact ⟨rfl, rfl, rfl⟩

theorem newExecutionSegment_spec_witness :
    ((1 : ℚ) < 0 ∨ (1 : ℚ) ≥ (0 : ℚ) ∨ (0 : ℚ) > 1) ∧
    ((⟨0, 1, 1⟩ : ExecutionSegment).«from» = 0 ∧
      (⟨0, 1, 1⟩ : ExecutionSegment).«to» = 1 ∧
      (⟨0, 1, 1⟩ : ExecutionSegment).length = 1 - 0) :=
  ⟨(newExecutionSegment_spec 1 0).1.mp ⟨.invalidRange, by decide⟩,
   (newExecutionSegment_spec 0 1).2 ⟨0, 1, 1⟩ (by norm_num [NewExecutionSegment])⟩

/-- C6: `SubSegment` on an absent child returns the parent unchanged; on a
present child it returns exactly the segment given by the spec's formula
`from = parent.from + parent.length * child.from`,
`length = parent.length * child.length`, `to = from + length`; in particular
`SubSegment((1/2,1], (0,1/2]) = (1/2, 3/4]`. -/
theorem subSegment_formula (p : Option ExecutionSegment) (c : ExecutionSegment) :
    SubSegment p none = p ∧
    SubSegment p (some c) =
      some ⟨segFrom p + parentLength p * c.«from»,
        (segFrom p + parentLength p * c.«from») + parentLength p * c.length,
        parentLength p * c.length⟩ ∧
    SubSegment (some ⟨1/2, 1, 1/2⟩) (some ⟨0, 1/2, 1/2⟩) = some ⟨1/2, 3/4, 1/4⟩ := by
  refine ⟨rfl, ?_, by norm_num [SubSegment, parentLength, segFrom]⟩
  simp only [SubSegment, Option.some.injEq, ExecutionSegment.mk.injEq]
  exact ⟨by ring, by ring, by ring_nf⟩

/-- C9: the absent (nil) segment is an identity for all three scaling
operations: integer `Scale` and both `ScaleRat` variants return their input
unchanged. -/
theorem absent_segment_scaling_identity (value : ℤ) (r : ℚ) :
    Scale none value = value ∧ InPlaceScaleRat none r = r ∧ CopyScaleRat none r = r :=
  ⟨rfl, rfl, rfl⟩

/-- C10: `UnmarshalText` is atomic on failure: whenever it returns an error,
the receiver's fields are exactly what they were before the call. -/
theorem unmarshalText_atomic (es : ExecutionSegment) (text : List Char)
    (h : (UnmarshalText es text).1 ≠ none) : (UnmarshalText es text).2 = es :=
  (unmarshalText_cases es text).resolve_left h

theorem unmarshalText_atomic_witness :
    (UnmarshalText ⟨0, 1, 1⟩ [':']).2 = ⟨0, 1, 1⟩ :=
  unmarshalText_atomic ⟨0, 1, 1⟩ [':'] (by decide)

/-- C8: contrary to the claim (and to the intent stated in the source's own
doc comment), parsing the empty string does not succeed: `stringToRat` rejects
the empty string, so `UnmarshalText` returns a parse error and leaves the
receiver unchanged. -/
theorem unmarshalText_empty_string_errors :
    (UnmarshalText ⟨0, 1, 1⟩ []).1 = some SegmentError.parseError ∧
    (UnmarshalText ⟨0, 1, 1⟩ []).2 = ⟨0, 1, 1⟩ ∧
    stringToRat [] = .error .parseError := by
  decide

/-- Integer form of the rounding step: for `0 ≤ n` and `0 < d`, adding 1 to
`n / d` exactly when `d ≤ 2 * (n % d)` is division with rounding to nearest,
half up. -/
theorem int_round_div (n d : ℤ) (hd : 0 < d) :
    (if d ≤ 2 * (n % d) then n / d + 1 else n / d) = (2 * n + d) / (2 * d) := by
  have hediv := Int.ediv_add_emod n d
  have hmod1 : 0 ≤ n % d := Int.emod_nonneg n hd.ne'
  have hmod2 : n % d < d := Int.emod_lt_of_pos n hd
  have h1 : 2 * n + d = (2 * (n % d) + d) + (2 * d) * (n / d) := by
    linear_combination (-2 : ℤ) * hediv
  rw [h1, Int.add_mul_ediv_left _ _ (by omega : (2 : ℤ) * d ≠ 0)]
  rcases le_or_lt d (2 * (n % d)) with hc | hc
  · rw [if_pos hc]
    have h2 : (2 * (n % d) + d) = (2 * (n % d) - d) + (2 * d) * 1 := by ring
    have hz : (2 * (n % d) - d) / (2 * d) = 0 :=
      Int.ediv_eq_zero_of_lt (by omega) (by omega)
    rw [h2, Int.add_mul_ediv_left _ _ (by omega : (2 : ℤ) * d ≠ 0), hz]
    omega
  · rw [if_neg (not_le.mpr hc)]
    have hz : (2 * (n % d) + d) / (2 * d) = 0 :=
      Int.ediv_eq_zero_of_lt (by omega) (by omega)
    rw [hz]
    omega

/-- On rationals at least `-1/2`, the source's `roundUp` is round-half-up,
i.e. `⌊q + 1/2⌋`. (Below `-1/2` it instead truncates toward zero.) -/
theorem roundUp_eq_floor (q : ℚ) (h : -(1/2 : ℚ) ≤ q) : roundUp q = ⌊q + 1/2⌋ := by
  have hd : (0 : ℤ) < (q.den : ℤ) := by exact_mod_cast q.den_pos
  have hdQ : (0 : ℚ) < (q.den : ℚ) := by exact_mod_cast q.den_pos
  have e : ((q.num : ℚ)) / ((q.den : ℚ)) = q := Rat.num_div_den q
  have hfloor : ⌊q + 1/2⌋ = (2 * q.num + (q.den : ℤ)) / (2 * (q.den : ℤ)) := by
    have key : q + 1/2 = ((2 * q.num + (q.den : ℤ) : ℤ) : ℚ) / ((2 * q.den : ℕ) : ℚ) := by
      conv_lhs => rw [← e]
      push_cast
      field_simp
      ring
    rw [key, Rat.floor_intCast_div_natCast]
    push_cast
    rfl
  rcases le_or_lt 0 q.num with hn | hn
  · simp only [roundUp]
    rw [Int.tdiv_eq_ediv hn (le_of_lt hd), Int.tmod_eq_emod hn (le_of_lt hd), hfloor]
    exact int_round_div q.num (q.den : ℤ) hd
  · have h2n : -(q.den : ℤ) ≤ 2 * q.num := by
      rw [← e, le_div_iff₀ hdQ] at h
      have : -((q.den : ℚ)) ≤ 2 * (q.num : ℚ) := by linarith
      exact_mod_cast this
    have hq0 : q < 0 := by
      by_contra hcon
      push_neg at hcon
      exact absurd (Rat.num_nonneg.mpr hcon) (not_le.mpr hn)
    have htd : Int.tdiv q.num (q.den : ℤ) = 0 := by
      have hneg : Int.tdiv (-q.num) (q.den : ℤ) = 0 := by
        rw [Int.tdiv_eq_ediv (by omega) (le_of_lt hd)]
        exact Int.ediv_eq_zero_of_lt (by omega) (by omega)
      have hsym := Int.neg_tdiv q.num (q.den : ℤ)
      omega
    have htm : Int.tmod q.num (q.den : ℤ) = q.num := by
      have h2 := Int.tmod_add_tdiv q.num (q.den : ℤ)
      rw [htd, mul_zero, add_zero] at h2
      exact h2
    simp only [roundUp, htd, htm]
    rw [if_neg (by omega)]
    symm
    rw [Int.floor_eq_iff]
    constructor
    · push_cast
      linarith
    · push_cast
      linarith

/-- On nonpositive rationals, the source's `roundUp` is the ceiling
(truncation toward zero). -/
theorem roundUp_of_nonpos (q : ℚ) (h : q ≤ 0) : roundUp q = ⌈q⌉ := by
  have hd : (0 : ℤ) < (q.den : ℤ) := by exact_mod_cast q.den_pos
  have hn : q.num ≤ 0 := by
    by_contra hcon
    push_neg at hcon
    exact absurd (Rat.num_pos.mp hcon) (not_lt.mpr h)
  have htd : Int.tdiv q.num (q.den : ℤ) = -((-q.num) / (q.den : ℤ)) := by
    have hsym := Int.neg_tdiv q.num (q.den : ℤ)
    rw [Int.tdiv_eq_ediv (by omega) (le_of_lt hd)] at hsym
    omega
  have hediv := Int.ediv_add_emod (-q.num) (q.den : ℤ)
  have hmod1 : 0 ≤ (-q.num) % (q.den : ℤ) := Int.emod_nonneg (-q.num) hd.ne'
  have htm : Int.tmod q.num (q.den : ℤ) = q.num + (q.den : ℤ) * ((-q.num) / (q.den : ℤ)) := by
    have h2 := Int.tmod_add_tdiv q.num (q.den : ℤ)
    rw [htd] at h2
    linarith [h2]
  have hmodle : Int.tmod q.num (q.den : ℤ) ≤ 0 := by
    rw [htm]
    linarith
  simp only [roundUp]
  rw [if_neg (by omega), htd]
  have hfloorneg : ⌊-q⌋ = (-q.num) / (q.den : ℤ) := by
    have e : ((q.num : ℚ)) / ((q.den : ℚ)) = q := Rat.num_div_den q
    have hq : -q = ((-q.num : ℤ) : ℚ) / ((q.den : ℕ) : ℚ) := by
      conv_lhs => rw [← e]
      push_cast
      ring
    rw [hq, Rat.floor_intCast_div_natCast]
  rw [show ⌈q⌉ = -⌊-q⌋ from by rw [← neg_neg q, Int.ceil_neg, neg_neg], hfloorneg]

/-- For a nonnegative value and a segment with `0 ≤ from ≤ to`, `Scale` is
the difference of the independently rounded cumulative shares at the two
boundaries. -/
theorem scale_some_eq_floor (s : ExecutionSegment) (v : ℤ) (hv : 0 ≤ v)
    (h0 : 0 ≤ s.«from») (hft : s.«from» ≤ s.«to») :
    Scale (some s) v =
      ⌊(v : ℚ) * s.«to» + 1/2⌋ - ⌊(v : ℚ) * s.«from» + 1/2⌋ := by
  have hvQ : (0 : ℚ) ≤ (v : ℚ) := by exact_mod_cast hv
  have hfrom0 : (0 : ℚ) ≤ (v : ℚ) * s.«from» := mul_nonneg hvQ h0
  have hle : (v : ℚ) * s.«from» ≤ (v : ℚ) * s.«to» := mul_le_mul_of_nonneg_left hft hvQ
  have h1 : roundUp ((v : ℚ) * s.«from») = ⌊(v : ℚ) * s.«from» + 1/2⌋ :=
    roundUp_eq_floor _ (by linarith)
  have hm_le : (↑⌊(v : ℚ) * s.«from» + 1/2⌋ : ℚ) ≤ (v : ℚ) * s.«from» + 1/2 :=
    Int.floor_le _
  show roundUp ((v : ℚ) * s.«to» - ((roundUp ((v : ℚ) * s.«from») : ℤ) : ℚ)) = _
  rw [h1, roundUp_eq_floor _ (by linarith),
    show (v : ℚ) * s.«to» - (⌊(v : ℚ) * s.«from» + 1/2⌋ : ℚ) + 1/2 =
      ((v : ℚ) * s.«to» + 1/2) - (⌊(v : ℚ) * s.«from» + 1/2⌋ : ℤ) from by ring,
    Int.floor_sub_int]

/-- The chain predicate for a list of consecutive segments running from `a`
to `b`: each segment starts where the previous one ended. -/
def Consecutive : ℚ → List ExecutionSegment → ℚ → Prop
  | a, [], b => a = b
  | a, s :: rest, b => s.«from» = a ∧ Consecutive s.«to» rest b

/-- Telescoping sum: over a consecutive chain of segments with nonnegative
starts, the scaled values sum to the difference of the rounded shares at the
chain's endpoints. -/
theorem sum_scale_chain (v : ℤ) (hv : 0 ≤ v) (L : List ExecutionSegment) :
    ∀ a b : ℚ, Consecutive a L b →
      (∀ s ∈ L, 0 ≤ s.«from» ∧ s.«from» ≤ s.«to») →
      (L.map fun s => Scale (some s) v).sum =
        ⌊(v : ℚ) * b + 1/2⌋ - ⌊(v : ℚ) * a + 1/2⌋ := by
  induction L with
  | nil =>
    intro a b hc _
    simp only [Consecutive] at hc
    subst hc
    simp
  | cons s rest ih =>
    intro a b hc hval
    simp only [Consecutive] at hc
    obtain ⟨hfa, hrest⟩ := hc
    have hs := hval s (by simp)
    have ihr := ih s.«to» b hrest (fun t ht => hval t (by simp [ht]))
    simp only [List.map_cons, List.sum_cons, ihr,
      scale_some_eq_floor s v hv hs.1 hs.2]
    rw [hfa]
    ring

/-- C1: for every value `≥ 0` and every exhaustive, non-overlapping partition
of `(0,1]` into valid consecutive segments, the `Scale`d shares sum to the
value exactly — nothing is lost or double-counted to rounding. -/
theorem scale_partition_conservation (v : ℤ) (hv : 0 ≤ v)
    (L : List ExecutionSegment) (hval : ∀ s ∈ L, Valid s)
    (hchain : Consecutive 0 L 1) :
    (L.map fun s => Scale (some s) v).sum = v := by
  rw [sum_scale_chain v hv L 0 1 hchain
    (fun s hs => ⟨(hval s hs).1, le_of_lt (hval s hs).2.1⟩)]
  have h0 : (⌊(1/2 : ℚ)⌋ : ℤ) = 0 := by
    rw [Int.floor_eq_iff]
    constructor <;> norm_num
  have h1 : ⌊(1/2 : ℚ) + (v : ℚ)⌋ = ⌊(1/2 : ℚ)⌋ + v := Int.floor_add_int _ v
  rw [mul_one, mul_zero, zero_add, show (v : ℚ) + 1/2 = (1/2 : ℚ) + (v : ℚ) from by ring,
    h1, h0]
  omega

theorem scale_partition_conservation_witness :
    (([⟨0, 1/3, 1/3⟩, ⟨1/3, 2/3, 1/3⟩, ⟨2/3, 1, 1/3⟩] :
        List ExecutionSegment).map fun s => Scale (some s) 10).sum = 10 :=
  scale_partition_conservation 10 (by norm_num) _
    (by
      intro s hs
      simp only [List.mem_cons, List.mem_singleton] at hs
      rcases hs with rfl | rfl | rfl | h
      · exact ⟨by norm_num, by norm_num, by norm_num, by norm_num⟩
      · exact ⟨by norm_num, by norm_num, by norm_num, by norm_num⟩
      · exact ⟨by norm_num, by norm_num, by norm_num, by norm_num⟩
      · cases h)
    (by
      refine ⟨rfl, ?_, ?_, ?_⟩ <;> norm_num [Consecutive])

/-- Modelled from the spec: the claim's rounding rule — round a rational to
the nearest integer, breaking ties (a remainder of exactly half the
denominator) away from zero, toward the larger magnitude. -/
def specRound (q : ℚ) : ℤ :=
  if 0 ≤ q then ⌊q + 1/2⌋ else -⌊-q + 1/2⌋

/-- C2 fails as stated: at the valid segment `(0, 1/4]` and value `-7`,
`Scale` returns `-1` (the source's `roundUp` truncates negative rationals
toward zero), while rounding `-7/4` to the nearest integer with ties away
from zero gives `-2`. -/
theorem scale_spec_round_counterexample :
    Valid ⟨0, 1/4, 1/4⟩ ∧
    Scale (some ⟨0, 1/4, 1/4⟩) (-7) = -1 ∧
    specRound (((-7 : ℤ) : ℚ) * (⟨0, 1/4, 1/4⟩ : ExecutionSegment).«to» -
      (specRound (((-7 : ℤ) : ℚ) * (⟨0, 1/4, 1/4⟩ : ExecutionSegment).«from») : ℤ)) = -2 := by
  have hr0 : roundUp 0 = 0 := by
    rw [roundUp_eq_floor 0 (by norm_num), Int.floor_eq_iff]
    constructor <;> norm_num
  have hs0 : specRound 0 = 0 := by
    rw [specRound, if_pos le_rfl, Int.floor_eq_iff]
    constructor <;> norm_num
  refine ⟨⟨by norm_num, by norm_num, by norm_num, by norm_num⟩, ?_, ?_⟩
  · show roundUp (((-7 : ℤ) : ℚ) * (1/4 : ℚ) - ((roundUp (((-7 : ℤ) : ℚ) * (0 : ℚ)) : ℤ) : ℚ)) = -1
    rw [show ((-7 : ℤ) : ℚ) * (0 : ℚ) = 0 from by norm_num, hr0]
    rw [show ((-7 : ℤ) : ℚ) * (1/4 : ℚ) - ((0 : ℤ) : ℚ) = -(7/4 : ℚ) from by norm_num]
    rw [roundUp_of_nonpos _ (by norm_num), Int.ceil_eq_iff]
    constructor <;> norm_num
  · show specRound (((-7 : ℤ) : ℚ) * (1/4 : ℚ) - (specRound (((-7 : ℤ) : ℚ) * (0 : ℚ)) : ℤ)) = -2
    rw [show ((-7 : ℤ) : ℚ) * (0 : ℚ) = 0 from by norm_num, hs0]
    rw [show ((-7 : ℤ) : ℚ) * (1/4 : ℚ) - ((0 : ℤ) : ℚ) = -(7/4 : ℚ) from by norm_num]
    rw [specRound, if_neg (by norm_num), neg_neg]
    rw [show ⌊(7/4 : ℚ) + 1/2⌋ = 2 from by rw [Int.floor_eq_iff]; constructor <;> norm_num]

/-- C2 (amended): for every valid segment and every nonnegative int64 value,
`Scale(segment, value)` equals `round(value*to - round(value*from))`, where
`round` is nearest-integer with ties away from zero. (For negative values the
source's `roundUp` truncates toward zero instead, see the counterexample.) -/
theorem scale_eq_spec_rounding (s : ExecutionSegment) (hs : Valid s)
    (v : ℤ) (hv : 0 ≤ v) :
    Scale (some s) v =
      specRound ((v : ℚ) * s.«to» - (specRound ((v : ℚ) * s.«from») : ℤ)) := by
  obtain ⟨h0, hft, _, _⟩ := hs
  have hvQ : (0 : ℚ) ≤ (v : ℚ) := by exact_mod_cast hv
  have hfrom0 : (0 : ℚ) ≤ (v : ℚ) * s.«from» := mul_nonneg hvQ h0
  have hsr1 : specRound ((v : ℚ) * s.«from») = ⌊(v : ℚ) * s.«from» + 1/2⌋ := by
    rw [specRound, if_pos hfrom0]
  have hm_le : (↑⌊(v : ℚ) * s.«from» + 1/2⌋ : ℚ) ≤ (v : ℚ) * s.«from» + 1/2 :=
    Int.floor_le _
  rw [scale_some_eq_floor s v hv h0 (le_of_lt hft), hsr1]
  rcases eq_or_lt_of_le hv with hv0 | hvpos
  · subst hv0
    simp only [Int.cast_zero, zero_mul, zero_add, zero_sub]
    have h0f : (⌊(1/2 : ℚ)⌋ : ℤ) = 0 := by
      rw [Int.floor_eq_iff]
      constructor <;> norm_num
    rw [h0f, specRound, if_pos (by norm_num), Int.cast_zero, neg_zero, zero_add, h0f]
    omega
  · have hlt : (v : ℚ) * s.«from» < (v : ℚ) * s.«to» :=
      mul_lt_mul_of_pos_left hft (by exact_mod_cast hvpos)
    have hgt : -(1/2 : ℚ) < (v : ℚ) * s.«to» - (⌊(v : ℚ) * s.«from» + 1/2⌋ : ℤ) := by
      linarith
    have hspec : specRound ((v : ℚ) * s.«to» - (⌊(v : ℚ) * s.«from» + 1/2⌋ : ℤ)) =
        ⌊(v : ℚ) * s.«to» - (⌊(v : ℚ) * s.«from» + 1/2⌋ : ℤ) + 1/2⌋ := by
      rw [specRound]
      split_ifs with hx
      · rfl
      · push_neg at hx
        have ha : ⌊-((v : ℚ) * s.«to» - (⌊(v : ℚ) * s.«from» + 1/2⌋ : ℤ)) + 1/2⌋ = 0 := by
          rw [Int.floor_eq_iff]
          constructor
          · push_cast
            linarith
          · push_cast
            linarith
        have hb : ⌊(v : ℚ) * s.«to» - (⌊(v : ℚ) * s.«from» + 1/2⌋ : ℤ) + 1/2⌋ = 0 := by
          rw [Int.floor_eq_iff]
          constructor
          · push_cast
            linarith
          · push_cast
            linarith
        rw [ha, hb, neg_zero]
    rw [hspec,
      show (v : ℚ) * s.«to» - (⌊(v : ℚ) * s.«from» + 1/2⌋ : ℤ) + 1/2 =
        ((v : ℚ) * s.«to» + 1/2) - (⌊(v : ℚ) * s.«from» + 1/2⌋ : ℤ) from by ring,
      Int.floor_sub_int]

theorem scale_eq_spec_rounding_witness :
    Scale (some ⟨0, 1, 1⟩) 5 =
      specRound ((5 : ℤ) * (⟨0, 1, 1⟩ : ExecutionSegment).«to» -
        (specRound ((5 : ℤ) * (⟨0, 1, 1⟩ : ExecutionSegment).«from») : ℤ)) :=
  scale_eq_spec_rounding ⟨0, 1, 1⟩ ⟨by norm_num, by norm_num, by norm_num, by norm_num⟩
    5 (by norm_num)

/-- Whatever `NewExecutionSegment` accepts satisfies the segment invariants. -/
theorem newExecutionSegment_valid («from» «to» : ℚ) (s : ExecutionSegment)
    (h : NewExecutionSegment «from» «to» = .ok s) : Valid s := by
  unfold NewExecutionSegment at h
  split_ifs at h with h1 h2 h3
  injection h with h
  subst h
  exact ⟨not_lt.mp h1, not_le.mp h2, not_lt.mp h3, rfl⟩

/-- Every segment built by `Split`'s loop went through `NewExecutionSegment`,
so it satisfies the invariants. -/
theorem splitGo_mem_valid (inc : ℚ) :
    ∀ (k : ℕ) (a : ℚ) (l : List ExecutionSegment) (fin : ℚ),
      splitGo inc k a = .ok (l, fin) → ∀ s ∈ l, Valid s := by
  intro k
  induction k with
  | zero =>
    intro a l fin h s hs
    simp only [splitGo] at h
    injection h with h
    cases h
    cases hs
  | succ k ih =>
    intro a l fin h s hs
    simp only [splitGo] at h
    split at h
    · cases h
    · split at h
      · cases h
      · rename_i x1 segment hNew x2 rest final hGo
        injection h with h
        cases h
        rcases List.mem_cons.mp hs with rfl | hmem
        · exact newExecutionSegment_valid _ _ _ hNew
        · exact ih (a + inc) rest fin hGo s hmem

/-- The bounds of a valid-or-absent segment. -/
theorem segBounds (es : Option ExecutionSegment) (hes : OValid es) :
    0 ≤ segFrom es ∧ segFrom es < segTo es ∧ segTo es ≤ 1 := by
  cases es with
  | none => norm_num [segFrom, segTo]
  | some s =>
    obtain ⟨a, b, c, d⟩ := hes
    exact ⟨a, b, c⟩

/-- C4: every non-absent segment produced by a successful operation of the
component — `NewExecutionSegment`, `UnmarshalText`, any element of a
successful `Split`, and `SubSegment` on valid-or-absent arguments — satisfies
the invariants `0 ≤ from < to ≤ 1` and `length = to - from`. -/
theorem operations_preserve_invariants :
    (∀ («from» «to» : ℚ) (s : ExecutionSegment),
      NewExecutionSegment «from» «to» = .ok s → Valid s) ∧
    (∀ (es : ExecutionSegment) (text : List Char),
      (UnmarshalText es text).1 = none → Valid (UnmarshalText es text).2) ∧
    (∀ (es : Option ExecutionSegment) (n : ℤ) (parts : List ExecutionSegment),
      Split es n = .ok parts → ∀ s ∈ parts, Valid s) ∧
    (∀ (p c : Option ExecutionSegment),
      OValid p → OValid c → OValid (SubSegment p c)) := by
  refine ⟨newExecutionSegment_valid, ?_, ?_, ?_⟩
  · intro es text
    unfold UnmarshalText
    repeat' split
    all_goals intro h
    all_goals try simp at h
    all_goals rename_i heq
    all_goals exact newExecutionSegment_valid _ _ _ heq
  · intro es n parts h
    simp only [Split] at h
    split_ifs at h with h1
    split at h
    · cases h
    · rename_i x results final hGo
      split_ifs at h with h2
      injection h with h
      subst h
      exact splitGo_mem_valid _ _ _ _ _ hGo
  · intro p c hp hc
    cases c with
    | none => exact hp
    | some cc =>
      have hpf : 0 ≤ segFrom p ∧ 0 < parentLength p ∧ segFrom p + parentLength p ≤ 1 := by
        cases p with
        | none => norm_num [segFrom, parentLength]
        | some pp =>
          obtain ⟨a, b, c1, d⟩ := hp
          simp only [segFrom, parentLength]
          rw [d]
          exact ⟨a, by linarith, by linarith⟩
      obtain ⟨hcf, hct, hc1, hclen⟩ := hc
      obtain ⟨hp0, hppos, hpsum⟩ := hpf
      have hclpos : 0 < cc.length := by rw [hclen]; linarith
      have hmul : parentLength p * cc.«from» + parentLength p * cc.length =
          parentLength p * cc.«to» := by
        rw [← mul_add, hclen]
        ring_nf
      have hble : parentLength p * cc.«to» ≤ parentLength p * 1 :=
        mul_le_mul_of_nonneg_left hc1 (le_of_lt hppos)
      refine ⟨?_, ?_, ?_, ?_⟩
      · have := mul_nonneg (le_of_lt hppos) hcf
        simp only [SubSegment]
        linarith
      · have := mul_pos hppos hclpos
        simp only [SubSegment]
        linarith
      · simp only [SubSegment]
        rw [mul_one] at hble
        linarith
      · simp only [SubSegment]
        ring

theorem operations_preserve_invariants_witness :
    Valid ⟨0, 1, 1⟩ ∧ OValid (SubSegment none none) :=
  ⟨operations_preserve_invariants.1 0 1 ⟨0, 1, 1⟩ (by norm_num [NewExecutionSegment]),
   operations_preserve_invariants.2.2.2 none none trivial trivial⟩

/-- Closed form of `Split`'s loop on a positive increment that fits in
`[0, 1]`: it succeeds and produces the arithmetic progression of segments
`(a + i*inc, a + (i+1)*inc]`, ending exactly at `a + k*inc`. -/
theorem splitGo_closed (inc : ℚ) (hinc : 0 < inc) :
    ∀ (k : ℕ) (a : ℚ), 0 ≤ a → a + k * inc ≤ 1 →
      splitGo inc k a =
        .ok ((List.range k).map fun i : ℕ =>
            ⟨a + (i : ℚ) * inc, a + (i : ℚ) * inc + inc, inc⟩,
          a + k * inc) := by
  intro k
  induction k with
  | zero =>
    intro a ha _
    simp only [splitGo, List.range_zero, List.map_nil, Nat.cast_zero, zero_mul, add_zero]
  | succ k ih =>
    intro a ha hb
    have hk0 : (0 : ℚ) ≤ (k : ℚ) * inc := mul_nonneg (Nat.cast_nonneg k) (le_of_lt hinc)
    push_cast at hb
    have hb' : a + inc + (k : ℚ) * inc ≤ 1 := by linarith
    have hNew : NewExecutionSegment a (a + inc) = .ok ⟨a, a + inc, a + inc - a⟩ := by
      unfold NewExecutionSegment
      rw [if_neg (not_lt.mpr ha), if_neg (not_le.mpr (by linarith)),
        if_neg (not_lt.mpr (by linarith))]
    have ihr := ih (a + inc) (by linarith) (by linarith)
    simp only [splitGo, hNew, ihr]
    simp only [Except.ok.injEq, Prod.mk.injEq]
    refine ⟨?_, by push_cast; ring⟩
    rw [List.range_succ_eq_map, List.map_cons, List.map_map]
    simp only [List.cons.injEq, ExecutionSegment.mk.injEq]
    refine ⟨⟨by push_cast; ring, by push_cast; ring, by ring⟩, ?_⟩
    apply List.map_congr_left
    intro i _
    simp only [Function.comp_apply, ExecutionSegment.mk.injEq]
    push_cast
    exact ⟨by ring, by ring, trivial⟩

/-- On a valid-or-absent segment and `numParts ≥ 1`, `Split` succeeds with the
arithmetic progression of `numParts` equal parts. -/
theorem split_ok (es : Option ExecutionSegment) (n : ℤ) (hes : OValid es)
    (hn : 1 ≤ n) :
    Split es n =
      .ok ((List.range n.toNat).map fun i : ℕ =>
        ⟨segFrom es + (i : ℚ) * ((segTo es - segFrom es) / (n : ℚ)),
         segFrom es + (i : ℚ) * ((segTo es - segFrom es) / (n : ℚ)) +
           (segTo es - segFrom es) / (n : ℚ),
         (segTo es - segFrom es) / (n : ℚ)⟩) := by
  obtain ⟨hf0, hft, ht1⟩ := segBounds es hes
  have hnQ : (0 : ℚ) < (n : ℚ) := by exact_mod_cast (by omega : (0 : ℤ) < n)
  have hinc : 0 < (segTo es - segFrom es) / (n : ℚ) := div_pos (by linarith) hnQ
  have hcast : ((n.toNat : ℕ) : ℚ) = (n : ℚ) := by
    rw [show ((n.toNat : ℕ) : ℚ) = (((n.toNat : ℕ) : ℤ) : ℚ) from by push_cast; rfl,
      Int.toNat_of_nonneg (by omega)]
  have hkey : segFrom es + (n.toNat : ℚ) * ((segTo es - segFrom es) / (n : ℚ)) =
      segTo es := by
    rw [hcast]
    field_simp
  simp only [Split]
  rw [if_neg (by omega : ¬ n < 1)]
  rw [splitGo_closed _ hinc n.toNat (segFrom es) hf0 (by rw [hkey]; exact ht1)]
  simp only [hkey]
  rw [if_neg (by simp)]

/-- C5: `Split(segment, numParts)` errors exactly when `numParts < 1`; on a
valid (or absent, treated as `(0,1]`) segment it otherwise returns exactly
`numParts` consecutive parts of equal length `(to - from)/numParts`, starting
at the segment's `from`, ending at its `to`, each part's `to` being the next
part's `from` — reconstructing the segment with no gap and no overlap. -/
theorem split_spec (es : Option ExecutionSegment) (n : ℤ) (hes : OValid es) :
    ((∃ e, Split es n = .error e) ↔ n < 1) ∧
    ∀ parts, Split es n = .ok parts →
      parts.length = n.toNat ∧
      (∀ s ∈ parts, s.length = (segTo es - segFrom es) / (n : ℚ)) ∧
      (∀ h : 0 < parts.length, (parts.get ⟨0, h⟩).«from» = segFrom es) ∧
      (∀ h : 0 < parts.length,
        (parts.get ⟨parts.length - 1, by omega⟩).«to» = segTo es) ∧
      (∀ (i : ℕ) (h : i + 1 < parts.length),
        (parts.get ⟨i, by omega⟩).«to» = (parts.get ⟨i + 1, h⟩).«from») := by
  constructor
  · constructor
    · rintro ⟨e, he⟩
      by_contra hcon
      push_neg at hcon
      rw [split_ok es n hes hcon] at he
      cases he
    · intro hlt
      refine ⟨.invalidArgument, ?_⟩
      simp only [Split]
      rw [if_pos hlt]
  · intro parts hp
    have hn : 1 ≤ n := by
      by_contra hcon
      push_neg at hcon
      rw [show Split es n = .error .invalidArgument from by
        simp only [Split]; rw [if_pos hcon]] at hp
      cases hp
    rw [split_ok es n hes hn] at hp
    injection hp with hp
    subst hp
    have hnQ : (0 : ℚ) < (n : ℚ) := by exact_mod_cast (by omega : (0 : ℤ) < n)
    have hcast : ((n.toNat : ℕ) : ℚ) = (n : ℚ) := by
      rw [show ((n.toNat : ℕ) : ℚ) = (((n.toNat : ℕ) : ℤ) : ℚ) from by push_cast; rfl,
        Int.toNat_of_nonneg (by omega)]
    have hkey : segFrom es + (n : ℚ) * ((segTo es - segFrom es) / (n : ℚ)) =
        segTo es := by
      field_simp
    refine ⟨by simp, ?_, ?_, ?_, ?_⟩
    · intro s hs
      simp only [List.mem_map, List.mem_range] at hs
      obtain ⟨i, _, rfl⟩ := hs
      rfl
    · intro h
      simp only [List.get_eq_getElem, List.getElem_map, List.getElem_range]
      push_cast
      ring
    · intro h
      simp only [List.length_map, List.length_range] at h
      have hk1 : 1 ≤ n.toNat := by omega
      simp only [List.get_eq_getElem, List.length_map, List.length_range,
        List.getElem_map, List.getElem_range]
      rw [Nat.cast_sub hk1, Nat.cast_one, hcast]
      linarith [hkey]
    · intro i h
      simp only [List.get_eq_getElem, List.getElem_map, List.getElem_range]
      push_cast
      ring

theorem split_spec_witness :
    ((0 : ℤ) < 1) ∧ ∃ e, Split none 0 = Except.error e :=
  ⟨by norm_num, (split_spec none 0 trivial).1.mpr (by norm_num)⟩

theorem digitChar_isDigit (d : ℕ) (h : d < 10) : (digitChar d).isDigit = true := by
  interval_cases d <;> rfl

theorem digitChar_toNat (d : ℕ) (h : d < 10) : (digitChar d).toNat - 48 = d := by
  interval_cases d <;> rfl

theorem natToDigits_ne_nil (n : ℕ) : natToDigits n ≠ [] := by
  unfold natToDigits
  split <;> simp

theorem natToDigits_digits : ∀ (n : ℕ), ∀ c ∈ natToDigits n, c.isDigit = true
  | n => by
    unfold natToDigits
    split
    · rename_i h10
      intro c hc
      rw [List.mem_singleton] at hc
      subst hc
      exact digitChar_isDigit n h10
    · rename_i h10
      intro c hc
      rcases List.mem_append.mp hc with h1 | h1
      · exact natToDigits_digits (n / 10) c h1
      · rw [List.mem_singleton] at h1
        subst h1
        exact digitChar_isDigit _ (Nat.mod_lt _ (by omega))
  termination_by n => n
  decreasing_by exact Nat.div_lt_self (by omega) (by omega)

theorem digitsVal_append_singleton (xs : List Char) (c : Char) :
    digitsVal (xs ++ [c]) = 10 * digitsVal xs + (c.toNat - 48) := by
  simp [digitsVal, List.foldl_append]

theorem digitsVal_natToDigits : ∀ (n : ℕ), digitsVal (natToDigits n) = n
  | n => by
    unfold natToDigits
    split
    · rename_i h10
      simp only [digitsVal, List.foldl_cons, List.foldl_nil, Nat.mul_zero, Nat.zero_add]
      exact digitChar_toNat n h10
    · rename_i h10
      rw [digitsVal_append_singleton, digitsVal_natToDigits (n / 10),
        digitChar_toNat _ (Nat.mod_lt _ (by omega))]
      omega
  termination_by n => n
  decreasing_by exact Nat.div_lt_self (by omega) (by omega)

theorem digitsToNat_natToDigits (n : ℕ) : digitsToNat (natToDigits n) = some n := by
  rw [digitsToNat, if_pos, digitsVal_natToDigits]
  refine ⟨natToDigits_ne_nil n, ?_⟩
  rw [List.all_eq_true]
  exact fun c hc => natToDigits_digits n c hc

theorem intSetString_natToDigits (n : ℕ) :
    intSetString (natToDigits n) = some (n : ℤ) := by
  obtain ⟨c, rest, hsh⟩ : ∃ c rest, natToDigits n = c :: rest := by
    cases h : natToDigits n with
    | nil => exact absurd h (natToDigits_ne_nil n)
    | cons c r => exact ⟨c, r, rfl⟩
  have hcd : c.isDigit = true := natToDigits_digits n c (by rw [hsh]; simp)
  have hplus : c ≠ '+' := by
    intro hcon
    rw [hcon] at hcd
    cases hcd
  have hminus : c ≠ '-' := by
    intro hcon
    rw [hcon] at hcd
    cases hcd
  rw [hsh, intSetString, if_neg hplus, if_neg hminus, ← hsh,
    digitsToNat_natToDigits]
  rfl

theorem splitOnFirst_of_not_mem (sep : Char) (l : List Char) (h : sep ∉ l) :
    splitOnFirst sep l = none := by
  induction l with
  | nil => rfl
  | cons c rest ih =>
    have hc : c ≠ sep := fun hcon => h (by rw [hcon]; simp)
    have hrest : sep ∉ rest := fun hcon => h (List.mem_cons_of_mem c hcon)
    simp only [splitOnFirst, if_neg hc, ih hrest, Option.map_none']

theorem splitOnFirst_append (sep : Char) (a b : List Char) (h : sep ∉ a) :
    splitOnFirst sep (a ++ sep :: b) = some (a, b) := by
  induction a with
  | nil => simp [splitOnFirst]
  | cons c rest ih =>
    have hc : c ≠ sep := fun hcon => h (by rw [hcon]; simp)
    have hrest : sep ∉ rest := fun hcon => h (List.mem_cons_of_mem c hcon)
    simp only [List.cons_append, splitOnFirst, if_neg hc, List.append_eq, ih hrest,
      Option.map_some']

/-- Every character of the rendering of a nonnegative rational is a digit or
the fraction slash. -/
theorem ratString_chars (q : ℚ) (hq : 0 ≤ q) :
    ∀ c ∈ ratString q, c.isDigit = true ∨ c = '/' := by
  intro c hc
  rw [ratString, if_neg (not_lt.mpr (Rat.num_nonneg.mpr hq)), List.nil_append] at hc
  rcases List.mem_append.mp hc with h1 | h1
  · exact Or.inl (natToDigits_digits _ c h1)
  · split at h1
    · cases h1
    · rcases List.mem_cons.mp h1 with rfl | h2
      · exact Or.inr rfl
      · exact Or.inl (natToDigits_digits _ c h2)

theorem colon_not_mem_ratString (q : ℚ) (hq : 0 ≤ q) : ':' ∉ ratString q := by
  intro hc
  rcases ratString_chars q hq ':' hc with h | h
  · cases h
  · cases h

theorem slash_not_mem_natToDigits (n : ℕ) : '/' ∉ natToDigits n := by
  intro hc
  have := natToDigits_digits n _ hc
  cases this

/-- The rational parser inverts the rational printer on nonnegative
rationals. -/
theorem ratSetString_ratString (q : ℚ) (hq : 0 ≤ q) :
    ratSetString (ratString q) = some q := by
  have hnum : ¬(q.num < 0) := not_lt.mpr (Rat.num_nonneg.mpr hq)
  have hnum_abs : ((q.num.natAbs : ℕ) : ℤ) = q.num :=
    Int.natAbs_of_nonneg (not_lt.mp hnum)
  rw [ratString, if_neg hnum, List.nil_append]
  by_cases hden : q.den = 1
  · rw [if_pos hden, List.append_nil]
    have hsplit1 : splitOnFirst '/' (natToDigits q.num.natAbs) = none :=
      splitOnFirst_of_not_mem _ _ (slash_not_mem_natToDigits _)
    have hsplit2 : splitOnFirst '.' (natToDigits q.num.natAbs) = none := by
      apply splitOnFirst_of_not_mem
      intro hc
      have := natToDigits_digits _ _ hc
      cases this
    simp only [ratSetString, hsplit1, hsplit2, intSetString_natToDigits,
      Option.map_some', Option.some.injEq]
    have : ((q.num.natAbs : ℕ) : ℚ) = q := by
      rw [show ((q.num.natAbs : ℕ) : ℚ) = ((q.num : ℤ) : ℚ) from by
        conv_rhs => rw [← hnum_abs, Int.cast_natCast]]
      exact (Rat.den_eq_one_iff q).mp hden
    exact this
  · rw [if_neg hden]
    have hsplit1 : splitOnFirst '/'
        (natToDigits q.num.natAbs ++ '/' :: natToDigits q.den) =
        some (natToDigits q.num.natAbs, natToDigits q.den) :=
      splitOnFirst_append _ _ _ (slash_not_mem_natToDigits _)
    simp only [ratSetString, hsplit1, intSetString_natToDigits, digitsToNat_natToDigits,
      if_neg q.den_nz, Option.some.injEq]
    have : ((q.num.natAbs : ℕ) : ℚ) / ((q.den : ℕ) : ℚ) = q := by
      rw [show ((q.num.natAbs : ℕ) : ℚ) = ((q.num : ℤ) : ℚ) from by
        conv_rhs => rw [← hnum_abs, Int.cast_natCast]]
      exact Rat.num_div_den q
    exact this

/-- Parsing with `stringToRat` inverts the rational printer on nonnegative rationals. -/
theorem stringToRat_ratString (q : ℚ) (hq : 0 ≤ q) :
    stringToRat (ratString q) = .ok q := by
  have hlast : ¬((ratString q).getLast? = some '%') := by
    intro hcon
    have hmem := List.mem_of_getLast?_eq_some hcon
    rcases ratString_chars q hq '%' hmem with h | h
    · cases h
    · cases h
  rw [stringToRat, if_neg hlast, ratSetString_ratString q hq]

/-- C7: formatting is the inverse of parsing: a valid segment formats as
`"<from>:<to>"` in exact rational notation, the absent segment as `"0:1"`
(and `MarshalText` uses the same rendering); parsing the formatted text of a
valid segment succeeds and returns that very segment, so
`format(parse(format(s))) = format(s)`. -/
theorem format_parse_round_trip (s : ExecutionSegment) (hs : Valid s) :
    segmentString none = ['0', ':', '1'] ∧
    segmentString (some s) = ratString s.«from» ++ ':' :: ratString s.«to» ∧
    MarshalText (some s) = some (segmentString (some s)) ∧
    (∀ es0 : ExecutionSegment,
      UnmarshalText es0 (segmentString (some s)) = (none, s)) ∧
    (∀ es0 : ExecutionSegment,
      segmentString (some (UnmarshalText es0 (segmentString (some s))).2) =
        segmentString (some s)) := by
  obtain ⟨h0, hft, ht1, hlen⟩ := hs
  have ht0 : (0 : ℚ) ≤ s.«to» := le_of_lt (lt_of_le_of_lt h0 hft)
  have hmain : ∀ es0 : ExecutionSegment,
      UnmarshalText es0 (segmentString (some s)) = (none, s) := by
    intro es0
    have hsplit : splitOnFirst ':' (segmentString (some s)) =
        some (ratString s.«from», ratString s.«to») :=
      splitOnFirst_append ':' _ _ (colon_not_mem_ratString _ h0)
    have hNew : NewExecutionSegment s.«from» s.«to» =
        .ok ⟨s.«from», s.«to», s.«to» - s.«from»⟩ := by
      unfold NewExecutionSegment
      rw [if_neg (not_lt.mpr h0), if_neg (not_le.mpr hft), if_neg (not_lt.mpr ht1)]
    simp only [UnmarshalText, hsplit, stringToRat_ratString _ h0,
      stringToRat_ratString _ ht0, hNew]
    rw [← hlen]
  exact ⟨rfl, rfl, rfl, hmain, fun es0 => by rw [hmain es0]⟩

theorem format_parse_round_trip_witness :
    UnmarshalText ⟨0, 1, 1⟩ (segmentString (some ⟨1/2, 3/4, 1/4⟩)) =
      (none, ⟨1/2, 3/4, 1/4⟩) :=
  (format_parse_round_trip ⟨1/2, 3/4, 1/4⟩
    ⟨by norm_num, by norm_num, by norm_num, by norm_num⟩).2.2.2.1 ⟨0, 1, 1⟩
